import Mathlib

/-!
Verification of the DDPM core in `ddpm_tf.py` (schedule builder, diffusion
math, image transform, and the shape semantics of the U-Net builder).

Conventions of the shallow embedding:
* tensors of rational/real scalars; float arithmetic is modelled exactly
  (`ℚ` where the source computes rational values, `ℝ` in statements that
  mention square roots);
* transcendental backend kernels (`tf.sigmoid`, `tf.cos`, the float power
  `** 0.5`) are passed as abstract function parameters, and theorems assume
  only their basic range facts;
* fallible TF ops are `Option`-valued (`tf.linspace` rejects `num <= 0`
  with `InvalidArgumentError "Requires num > 0"`, modelled as `none`).
-/

namespace DDPM

/-- Exact semantics of a successful `tf.linspace(a, b, n)`: `n` evenly spaced
values whose `i`-th element is `a + (b - a) * i / (n - 1)`.  For `n = 1`
the sole element is `a` (the `i / (n - 1)` factor is `0 / 0 = 0`). -/
def linspaceVals (a b : ℚ) (n : ℕ) : List ℚ :=
  (List.range n).map (fun (i : ℕ) => a + (b - a) * (i : ℚ) / ((n - 1 : ℕ) : ℚ))

/-- `tf.linspace(a, b, num)` as implemented by `linspace_nd`, the Python
rewrite used by TF >= 2.4 (hence by every TF that provides the
`GroupNormalization` layer this file's model requires): it concatenates
`[a]`, the `max(num - 2, 0)` interior points and `[b]`, then takes
`tf.slice(_, [0], [num])` of the result.  `num = 0` slices nothing (an empty
tensor), `num = -1` means "all remaining" in `tf.slice` and yields `[a, b]`,
and only `num <= -2` raises (`InvalidArgumentError`, negative slice size),
modelled by `none`.  In particular a non-positive `num` is NOT rejected in
general, and the bounds `a`, `b` are never compared. -/
def linspace (a b : ℚ) (num : ℤ) : Option (List ℚ) :=
  if num ≤ -2 then none
  else if num = -1 then some [a, b]
  else some (linspaceVals a b num.toNat)

/-- `beta_start = 0.0001`, the lower schedule bound hardcoded in each
non-cosine builder. -/
def beta_start : ℚ := 1 / 10000

/-- `beta_end = 0.02`, the upper schedule bound hardcoded in each non-cosine
builder. -/
def beta_end : ℚ := 1 / 50

/-- `linear_beta_schedule(timesteps) = tf.linspace(beta_start, beta_end, timesteps)`. -/
def linear_beta_schedule (timesteps : ℤ) : Option (List ℚ) :=
  linspace beta_start beta_end timesteps

/-- `quadratic_beta_schedule(timesteps) =
tf.linspace(beta_start**0.5, beta_end**0.5, timesteps) ** 2`.
The float square root `** 0.5` is modelled by an abstract function `rt`;
theorems assume of it only elementary range facts. -/
def quadratic_beta_schedule (rt : ℚ → ℚ) (timesteps : ℤ) : Option (List ℚ) :=
  (linspace (rt beta_start) (rt beta_end) timesteps).map
    (fun l => l.map (fun x => x ^ 2))

/-- `tf.linspace(-6, 6, num)` exactly as `sigmoid_beta_schedule` calls it,
with Python-int endpoints: `convert_to_tensor(-6)` yields an int32 tensor,
and inside `linspace_nd` the float64 `delta = (stop - start) / n_steps`
(integer `truediv` promotes to float64) is multiplied with the int32
interior range and added to the int32 start -- a dtype mismatch that raises
(`InvalidArgumentError` / `TypeError`) for every `num`; `tf.sigmoid` also
rejects int tensors.  The op therefore never returns a value. -/
def linspace_int_endpoints (num : ℤ) : Option (List ℚ) := none

/-- `sigmoid_beta_schedule(timesteps)`: post-processes
`tf.sigmoid(tf.linspace(-6, 6, timesteps)) * (beta_end - beta_start) + beta_start`,
with `tf.sigmoid` as an abstract function `sig`; the integer-endpoint
linspace raises for every `timesteps` (see `linspace_int_endpoints`), so the
builder never produces a sequence. -/
def sigmoid_beta_schedule (sig : ℚ → ℚ) (timesteps : ℤ) : Option (List ℚ) :=
  (linspace_int_endpoints timesteps).map
    (fun l => l.map (fun x => sig x * (beta_end - beta_start) + beta_start))

/-- `tf.clip_by_value(x, lo, hi)`. -/
def clip_by_value (x lo hi : ℚ) : ℚ := min (max x lo) hi

/-- `tf.math.pi`, as referenced by `cosine_beta_schedule`: TensorFlow's
`tf.math` module exports no attribute `pi`, so evaluating the expression
raises `AttributeError` on every call.  Modelled by `none` at the point of
use. -/
def tf_math_pi : Option ℚ := none

/-- `cosine_beta_schedule(timesteps, s)` (Nichol-Dhariwal): with
`steps = timesteps + 1`, `x = tf.linspace(0, timesteps, steps)`,
`ac_i = cos_half((x_i / timesteps + s) / (1 + s)) ^ 2` where `cos_half u`
abstracts the float kernel `tf.cos(u * pi * 0.5)`, then `ac` is normalised by
`ac_0`, `beta_i = 1 - ac_{i+1} / ac_i`, and the result is clipped to
`[0.0001, 0.9999]`.  The source default for `s` is `0.008`.  The `tf.math.pi`
factor inside the cosine argument does not exist in TensorFlow
(see `tf_math_pi`), so the builder in fact raises `AttributeError` for every
`timesteps` right after the linspace. -/
def cosine_beta_schedule (cos_half : ℚ → ℚ) (s : ℚ) (timesteps : ℤ) :
    Option (List ℚ) :=
  (linspace 0 (timesteps : ℚ) (timesteps + 1)).bind (fun x =>
    tf_math_pi.map (fun _pi =>
      let ac := x.map (fun xi => cos_half ((xi / (timesteps : ℚ) + s) / (1 + s)) ^ 2)
      let acn := ac.map (fun a => a / ac.headD 0)
      let betasRaw := List.zipWith (fun p n => 1 - n / p) acn.dropLast acn.tail
      betasRaw.map (fun b => clip_by_value b (1 / 10000) (9999 / 10000))))

/-- Global `timesteps = 200` used to build the module-level schedule tables. -/
def timesteps : ℤ := 200

/-- Module table `betas = linear_beta_schedule(timesteps)`; the call succeeds
because `timesteps = 200 > 0`. -/
def betas : List ℚ := (linear_beta_schedule timesteps).getD []

/-- Module table `alphas = 1. - betas` (elementwise). -/
def alphas : List ℚ := betas.map (fun b => 1 - b)

/-- Elementwise running product, the semantics of `tf.math.cumprod(_, axis=0)`. -/
def cumprod : List ℚ → List ℚ
  | [] => []
  | a :: as => a :: (cumprod as).map (fun x => a * x)

/-- Module table `alphas_cumprod = tf.math.cumprod(alphas, axis=0)`. -/
def alphas_cumprod : List ℚ := cumprod alphas

/-- Module table
`alphas_cumprod_prev = tf.pad(alphas_cumprod[:-1], [[1, 0]], constant_values=1.0)`. -/
def alphas_cumprod_prev : List ℚ := 1 :: alphas_cumprod.dropLast

theorem linspaceVals_length (a b : ℚ) (n : ℕ) : (linspaceVals a b n).length = n := by
  unfold linspaceVals
  rw [List.length_map, List.length_range]

theorem linspaceVals_mem_bounds {a b : ℚ} (hab : a ≤ b) {n : ℕ} {x : ℚ}
    (hx : x ∈ linspaceVals a b n) : a ≤ x ∧ x ≤ b := by
  simp only [linspaceVals, List.mem_map, List.mem_range] at hx
  obtain ⟨i, hi, rfl⟩ := hx
  have hba : (0 : ℚ) ≤ b - a := by linarith
  match n, hi with
  | n' + 1, hi =>
    have hs : (n' + 1 - 1 : ℕ) = n' := rfl
    rw [hs]
    rcases Nat.eq_zero_or_pos n' with h0 | hpos
    · subst h0
      have : i = 0 := by omega
      subst this
      refine ⟨by simp, ?_⟩
      simpa using hab
    · have hdpos : (0 : ℚ) < (n' : ℚ) := by exact_mod_cast hpos
      have ht0 : (0 : ℚ) ≤ (i : ℚ) / (n' : ℚ) := by positivity
      have ht1 : (i : ℚ) / (n' : ℚ) ≤ 1 := by
        rw [div_le_one hdpos]
        exact_mod_cast Nat.le_of_lt_succ hi
      constructor
      · have h1 : 0 ≤ (b - a) * ((i : ℚ) / (n' : ℚ)) := mul_nonneg hba ht0
        have h2 : a + (b - a) * ((i : ℚ) / (n' : ℚ))
            = a + (b - a) * (i : ℚ) / (n' : ℚ) := by ring
        linarith [h2 ▸ (by linarith : a ≤ a + (b - a) * ((i : ℚ) / (n' : ℚ)))]
      · have h1 : (b - a) * ((i : ℚ) / (n' : ℚ)) ≤ (b - a) * 1 :=
          mul_le_mul_of_nonneg_left ht1 hba
        have h2 : a + (b - a) * (i : ℚ) / (n' : ℚ)
            = a + (b - a) * ((i : ℚ) / (n' : ℚ)) := by ring
        rw [h2]
        linarith

theorem betas_eq : betas = linspaceVals beta_start beta_end 200 := rfl

theorem betas_length : betas.length = 200 := by
  rw [betas_eq, linspaceVals_length]

theorem alphas_length : alphas.length = 200 := by
  unfold alphas
  rw [List.length_map, betas_length]

theorem betas_getD {i : ℕ} (h : i < 200) :
    betas.getD i 0 = ((i : ℚ) + 1) / 10000 := by
  rw [betas_eq]
  rw [List.getD_eq_getElem _ _ (by rw [linspaceVals_length]; exact h)]
  simp only [linspaceVals, List.getElem_map, List.getElem_range]
  unfold beta_start beta_end
  have h199 : ((200 - 1 : ℕ) : ℚ) = 199 := by norm_num
  rw [h199]
  field_simp
  ring

theorem alphas_getD {i : ℕ} (h : i < 200) :
    alphas.getD i 0 = (9999 - (i : ℚ)) / 10000 := by
  have hb : i < betas.length := by rw [betas_length]; exact h
  unfold alphas
  rw [List.getD_eq_getElem _ _ (by rw [List.length_map, betas_length]; exact h),
    List.getElem_map, ← List.getD_eq_getElem betas 0 hb, betas_getD h]
  ring

theorem cumprod_length (l : List ℚ) : (cumprod l).length = l.length := by
  induction l with
  | nil => rfl
  | cons a as ih => simp [cumprod, ih]

theorem alphas_cumprod_length : alphas_cumprod.length = 200 := by
  unfold alphas_cumprod
  rw [cumprod_length, alphas_length]

theorem cumprod_getD :
    ∀ (l : List ℚ) (t : ℕ), t < l.length →
      (cumprod l).getD t 0 = (l.take (t + 1)).prod := by
  intro l
  induction l with
  | nil => intro t ht; simp at ht
  | cons a as ih =>
    intro t ht
    match t with
    | 0 => simp [cumprod]
    | t + 1 =>
      have hlen : t < as.length := by simpa using ht
      have hclen : t < ((cumprod as).map (fun x => a * x)).length := by
        rw [List.length_map, cumprod_length]; exact hlen
      have hclen' : t < (cumprod as).length := by rw [cumprod_length]; exact hlen
      show ((cumprod as).map (fun x => a * x)).getD t 0 = _
      rw [List.getD_eq_getElem _ _ hclen, List.getElem_map,
        ← List.getD_eq_getElem (cumprod as) 0 hclen', ih t hlen]
      rw [List.take_succ_cons, List.prod_cons]

theorem alphas_eq_map :
    alphas = (List.range 200).map (fun (i : ℕ) => (9999 - (i : ℚ)) / 10000) := by
  apply List.ext_getElem
  · rw [alphas_length, List.length_map, List.length_range]
  · intro i h1 h2
    have hi : i < 200 := by rw [alphas_length] at h1; exact h1
    rw [List.getElem_map, List.getElem_range, ← List.getD_eq_getElem alphas 0 h1,
      alphas_getD hi]

theorem prod_map_div_pow (g : ℕ → ℚ) (c : ℚ) :
    ∀ n : ℕ, ((List.range n).map (fun i => g i / c)).prod
      = ((List.range n).map g).prod / c ^ n := by
  intro n
  induction n with
  | zero => simp
  | succ n ih =>
    rw [List.range_succ, List.map_append, List.map_append, List.prod_append,
      List.prod_append, ih]
    simp only [List.map_cons, List.map_nil, List.prod_cons, List.prod_nil, mul_one]
    rw [pow_succ, div_mul_div_comm]

/-- The exact numerator of `alphas_cumprod[199]`: with `beta_i = (i+1)/10000`,
the product of the `alpha` numerators `9999 - i` for `i = 0..199`. -/
def alphasCumprodNum : ℕ := ((List.range 200).map (fun i => 9999 - i)).prod

theorem alphas_cumprod_199 :
    alphas_cumprod.getD 199 0 = (alphasCumprodNum : ℚ) / 10000 ^ 200 := by
  unfold alphas_cumprod
  rw [cumprod_getD alphas 199 (by rw [alphas_length]; norm_num)]
  have htake : alphas.take 200 = alphas := by
    apply List.take_of_length_le
    rw [alphas_length]
  rw [htake, alphas_eq_map, prod_map_div_pow]
  congr 1
  have hcast : ((List.range 200).map (fun (i : ℕ) => (9999 - (i : ℚ))))
      = (List.range 200).map (fun (i : ℕ) => ((9999 - i : ℕ) : ℚ)) := by
    apply List.map_congr_left
    intro i hi
    rw [List.mem_range] at hi
    rw [Nat.cast_sub (by omega)]
    norm_num
  rw [hcast]
  unfold alphasCumprodNum
  rw [Nat.cast_list_prod, List.map_map]
  rfl

set_option maxRecDepth 40000 in
theorem alphasCumprodNum_lb : 10000 ^ 200 ≤ 400 * alphasCumprodNum := by decide

set_option maxRecDepth 40000 in
theorem alphasCumprodNum_ub : 10000 * alphasCumprodNum < 1369 * 10000 ^ 200 := by
  decide

theorem ac199_lb : (1 : ℚ) / 400 ≤ alphas_cumprod.getD 199 0 := by
  rw [alphas_cumprod_199]
  rw [div_le_div_iff₀ (by norm_num) (by positivity)]
  have := alphasCumprodNum_lb
  calc (1 : ℚ) * 10000 ^ 200 = ((10000 ^ 200 : ℕ) : ℚ) := by push_cast; ring
  _ ≤ ((400 * alphasCumprodNum : ℕ) : ℚ) := by exact_mod_cast this
  _ = (alphasCumprodNum : ℚ) * 400 := by push_cast; ring

theorem ac199_ub : alphas_cumprod.getD 199 0 < 1369 / 10000 := by
  rw [alphas_cumprod_199]
  rw [div_lt_div_iff₀ (by positivity) (by norm_num)]
  have := alphasCumprodNum_ub
  calc (alphasCumprodNum : ℚ) * 10000 = ((10000 * alphasCumprodNum : ℕ) : ℚ) := by
        push_cast; ring
  _ < ((1369 * 10000 ^ 200 : ℕ) : ℚ) := by exact_mod_cast this
  _ = 1369 * 10000 ^ 200 := by push_cast; ring

/-- C4 fails on the code: with the linear schedule and T = 200, the
coefficient `sqrt(alphas_cumprod[199])` multiplying `x0` in `q_sample` at
`t = 199` is NOT strictly less than 0.05 (its exact value is about 0.3636,
since `alphas_cumprod[199] ≈ 0.1322 ≥ 1/400`). -/
theorem sqrt_alphas_cumprod_199_not_lt :
    ¬ Real.sqrt ((alphas_cumprod.getD 199 0 : ℚ) : ℝ) < 1 / 20 := by
  push_neg
  rw [Real.le_sqrt' (by norm_num)]
  have h := ac199_lb
  calc ((1 : ℝ) / 20) ^ 2 = (((1 : ℚ) / 400 : ℚ) : ℝ) := by push_cast; norm_num
  _ ≤ ((alphas_cumprod.getD 199 0 : ℚ) : ℝ) := by exact_mod_cast h

/-- C4 amended: the coefficient `sqrt(alphas_cumprod[199])` on `x0` at
`t = 199` is strictly less than 0.37 (but not less than 0.05). -/
theorem sqrt_alphas_cumprod_199_lt :
    Real.sqrt ((alphas_cumprod.getD 199 0 : ℚ) : ℝ) < 37 / 100 := by
  rw [Real.sqrt_lt' (by norm_num)]
  have h := ac199_ub
  calc ((alphas_cumprod.getD 199 0 : ℚ) : ℝ) < (((1369 : ℚ) / 10000 : ℚ) : ℝ) := by
        exact_mod_cast h
  _ = ((37 : ℝ) / 100) ^ 2 := by push_cast; norm_num

/-- C5 fails on the code: under the `linspace_nd` implementation of
`tf.linspace` (the only one in TF versions providing `GroupNormalization`),
a non-positive timestep count is not rejected.  `T = 0` makes the linear and
quadratic builders return an EMPTY beta sequence and `T = -1` makes them
return the two endpoints, instead of failing with a configuration error; and
`start >= end` is never examined at all. -/
theorem schedule_builder_accepts_nonpositive :
    linear_beta_schedule 0 = some [] ∧
      quadratic_beta_schedule (fun q => q) 0 = some [] ∧
      linear_beta_schedule (-1) = some [beta_start, beta_end] := by
  refine ⟨?_, ?_, ?_⟩ <;> rfl

/-- C5 amended: the linear and quadratic builders fail (the `tf.slice` inside
`linspace_nd` raises `InvalidArgumentError` on a negative slice size) exactly
when `T <= -2`; `T = 0` returns the empty sequence, `T = -1` returns the two
endpoints `[start, stop]`, and a positive `T` returns the `T` evenly spaced
values; the `start >= end` condition is never validated (harmlessly here,
since the bounds are hardcoded to `1e-4 < 0.02`).  The sigmoid builder is
broken independently of `T`: its integer linspace endpoints raise a dtype
error on every call (recorded as a code bug under the bounds claim). -/
theorem schedule_builder_boundary (T : ℤ) (rt : ℚ → ℚ) :
    (linear_beta_schedule T = none ↔ T ≤ -2) ∧
      (quadratic_beta_schedule rt T = none ↔ T ≤ -2) ∧
      linear_beta_schedule (-1) = some [beta_start, beta_end] ∧
      (0 < T →
        linear_beta_schedule T
          = some (linspaceVals beta_start beta_end T.toNat) ∧
          (linspaceVals beta_start beta_end T.toNat).length = T.toNat) := by
  refine ⟨?_, ?_, rfl, ?_⟩
  · unfold linear_beta_schedule linspace
    by_cases h2 : T ≤ -2
    · simp [h2]
    · by_cases h1 : T = -1 <;> simp [h2, h1]
  · unfold quadratic_beta_schedule linspace
    by_cases h2 : T ≤ -2
    · simp [h2]
    · by_cases h1 : T = -1 <;> simp [h2, h1]
  · intro hT
    have h2 : ¬ T ≤ -2 := by omega
    have h1 : T ≠ -1 := by omega
    refine ⟨?_, linspaceVals_length _ _ _⟩
    unfold linear_beta_schedule linspace
    simp [h2, h1]

theorem schedule_builder_boundary_witness :
    linear_beta_schedule (-2) = none ∧
      linear_beta_schedule 3
        = some (linspaceVals beta_start beta_end (3 : ℤ).toNat) :=
  ⟨(schedule_builder_boundary (-2) (fun q => q)).1.mpr (by norm_num),
    ((schedule_builder_boundary 3 (fun q => q)).2.2.2 (by norm_num)).1⟩

theorem cumprod_mem_pos :
    ∀ (l : List ℚ), (∀ x ∈ l, 0 < x ∧ x < 1) →
      ∀ y ∈ cumprod l, 0 < y ∧ y < 1 := by
  intro l
  induction l with
  | nil => intro _ y hy; simp [cumprod] at hy
  | cons a as ih =>
    intro hl y hy
    have ha := hl a (List.mem_cons_self a as)
    simp only [cumprod, List.mem_cons, List.mem_map] at hy
    rcases hy with rfl | ⟨x, hx, rfl⟩
    · exact ha
    · have hx' := ih (fun z hz => hl z (List.mem_cons_of_mem a hz)) x hx
      refine ⟨mul_pos ha.1 hx'.1, ?_⟩
      calc a * x < a * 1 := mul_lt_mul_of_pos_left hx'.2 ha.1
      _ = a := mul_one a
      _ < 1 := ha.2

theorem cumprod_chain :
    ∀ (l : List ℚ), (∀ x ∈ l, 0 < x ∧ x < 1) →
      List.Chain' (fun p q => q < p) (cumprod l) := by
  intro l
  induction l with
  | nil => intro _; simp [cumprod]
  | cons a as ih =>
    intro hl
    have ha := hl a (List.mem_cons_self a as)
    have htail : ∀ x ∈ as, 0 < x ∧ x < 1 :=
      fun z hz => hl z (List.mem_cons_of_mem a hz)
    show List.Chain' _ (a :: (cumprod as).map (fun x => a * x))
    rcases hcp : cumprod as with _ | ⟨y, ys⟩
    · simp
    · have hy : 0 < y ∧ y < 1 := by
        apply cumprod_mem_pos as htail y
        rw [hcp]
        exact List.mem_cons_self y ys
      have hchain : List.Chain' (fun p q => q < p) (cumprod as) := ih htail
      rw [hcp] at hchain
      have hmap : List.Chain' (fun p q => q < p) ((y :: ys).map (fun x => a * x)) :=
        List.chain'_map_of_chain' (R := fun p q => q < p) (S := fun p q => q < p)
          (fun x => a * x)
          (fun p q hpq => mul_lt_mul_of_pos_left hpq ha.1) hchain
      rw [List.map_cons] at hmap ⊢
      rw [List.chain'_cons]
      refine ⟨?_, hmap⟩
      calc a * y < a * 1 := mul_lt_mul_of_pos_left hy.2 ha.1
      _ = a := mul_one a

theorem alphas_mem : ∀ x ∈ alphas, 0 < x ∧ x < 1 := by
  intro x hx
  unfold alphas at hx
  rw [List.mem_map] at hx
  obtain ⟨b, hb, rfl⟩ := hx
  rw [betas_eq] at hb
  have := linspaceVals_mem_bounds (by unfold beta_start beta_end; norm_num) hb
  unfold beta_start beta_end at this
  exact ⟨by linarith [this.2], by linarith [this.1]⟩

/-- C7: for the module-level tables (linear schedule, T = 200),
`alphas_cumprod` is strictly decreasing in `t`, and the shifted table
`alphas_cumprod_prev` has first entry exactly 1. -/
theorem alphas_cumprod_strictly_decreasing :
    (∀ t : ℕ, t + 1 < 200 →
      alphas_cumprod.getD (t + 1) 0 < alphas_cumprod.getD t 0) ∧
    alphas_cumprod_prev.getD 0 0 = 1 := by
  constructor
  · intro t ht
    have hchain := cumprod_chain alphas alphas_mem
    rw [List.chain'_iff_get] at hchain
    have hlen : t < (cumprod alphas).length - 1 := by
      rw [cumprod_length, alphas_length]; omega
    have hstep := hchain t hlen
    unfold alphas_cumprod
    rw [List.getD_eq_getElem _ _ (by rw [cumprod_length, alphas_length]; omega),
      List.getD_eq_getElem _ _ (by rw [cumprod_length, alphas_length]; omega)]
    simpa [List.get_eq_getElem] using hstep
  · rfl

theorem alphas_cumprod_strictly_decreasing_witness :
    alphas_cumprod.getD 1 0 < alphas_cumprod.getD 0 0 :=
  alphas_cumprod_strictly_decreasing.1 0 (by norm_num)

/-- A TF tensor: a shape and flat data (only what the verified claims need). -/
structure Tensor (α : Type) where
  shape : List ℕ
  data : List α

/-- `tf.gather(a, t, axis=-1)` on a rank-1 table: one table entry per index. -/
def gather {α : Type} [Inhabited α] (a : List α) (t : List ℕ) : Tensor α :=
  ⟨[t.length], t.map (fun i => a.getD i default)⟩

/-- `tf.reshape(x, s)`. -/
def reshape {α : Type} (x : Tensor α) (s : List ℕ) : Tensor α :=
  ⟨s, x.data⟩

/-- `extract(a, t, x_shape)`: gather one scalar per batch element at index
`t[i]`, then reshape to `[batch] ++ [1] * (rank - 1)` so the result
broadcasts against a tensor of rank `len(x_shape)`
(`batch = tf.shape(t)[0]`). -/
def extract {α : Type} [Inhabited α] (a : List α) (t : List ℕ)
    (x_shape : List ℕ) : Tensor α :=
  reshape (gather a t) (t.length :: List.replicate (x_shape.length - 1) 1)

theorem extract_data_length {α : Type} [Inhabited α] (a : List α)
    (t : List ℕ) (sh : List ℕ) : (extract a t sh).data.length = t.length := by
  simp [extract, reshape, gather]

theorem extract_data_getD {α : Type} [Inhabited α] (a : List α) (t : List ℕ)
    (sh : List ℕ) (j : ℕ) (hj : j < t.length) :
    (extract a t sh).data.getD j default = a.getD (t.getD j 0) default := by
  show (t.map (fun i => a.getD i default)).getD j default = _
  rw [List.getD_eq_getElem _ _ (by simpa using hj), List.getElem_map,
    ← List.getD_eq_getElem t 0 hj]

/-- C8: `extract` returns a tensor of shape `[batch] ++ [1]*(rank-1)` whose
`j`-th data entry equals `a[t[j]]` for every batch element `j`. -/
theorem extract_spec {α : Type} [Inhabited α] (a : List α) (t : List ℕ)
    (x_shape : List ℕ) (hr : 1 ≤ x_shape.length)
    (ht : ∀ j ∈ t, j < a.length) :
    (extract a t x_shape).shape
        = t.length :: List.replicate (x_shape.length - 1) 1 ∧
      (extract a t x_shape).data.length = t.length ∧
      ∀ j, j < t.length →
        (extract a t x_shape).data.getD j default
          = a.getD (t.getD j 0) default := by
  refine ⟨rfl, extract_data_length a t x_shape, ?_⟩
  intro j hj
  exact extract_data_getD a t x_shape j hj

theorem extract_spec_witness :
    (extract ([10, 20, 30] : List ℚ) [2, 0] [5, 4, 4]).shape = [2, 1, 1] ∧
      (extract ([10, 20, 30] : List ℚ) [2, 0] [5, 4, 4]).data.getD 0 default
        = ([10, 20, 30] : List ℚ).getD 2 default := by
  have h := extract_spec ([10, 20, 30] : List ℚ) [2, 0] [5, 4, 4]
    (by norm_num) (by decide)
  refine ⟨?_, ?_⟩
  · rw [h.1]
    rfl
  · have h0 := h.2.2 0 (by norm_num)
    simpa using h0

/-- Per-batch broadcast of the `[batch, 1, ..., 1]`-shaped coefficient data
produced by `extract` against a batched tensor (a batch list of flattened
samples): sample `i` is scaled elementwise by coefficient `i`, the TF
broadcasting semantics for this shape pattern. -/
def broadcast_mul {α : Type} [Mul α] (c : List α) (x : List (List α)) :
    List (List α) :=
  List.zipWith (fun s row => row.map (fun v => s * v)) c x

/-- Elementwise addition of two batched tensors of equal shape. -/
def tensor_add {α : Type} [Add α] (x y : List (List α)) : List (List α) :=
  List.zipWith (fun r1 r2 => List.zipWith (fun u v => u + v) r1 r2) x y

/-- The shape `[batch, sample_size]` of a batched tensor, as passed by
`q_sample` to `extract` (only its rank is used there). -/
def tensor_shape {α : Type} (x : List (List α)) : List ℕ :=
  [x.length, (x.headD []).length]

/-- `q_sample(x_start, t, noise)`: the closed-form forward sample
`extract(sqrt_alphas_cumprod, t, shape) * x_start +
extract(sqrt_one_minus_alphas_cumprod, t, shape) * noise`.  The two
precomputed tables are process-wide constants in the source, passed here
explicitly; the `noise=None` branch (fresh standard-normal sampling) is
outside this deterministic fragment. -/
def q_sample {α : Type} [Inhabited α] [Mul α] [Add α]
    (sqrt_ac sqrt_om_ac : List α) (x_start : List (List α)) (t : List ℕ)
    (noise : List (List α)) : List (List α) :=
  tensor_add
    (broadcast_mul (extract sqrt_ac t (tensor_shape x_start)).data x_start)
    (broadcast_mul (extract sqrt_om_ac t (tensor_shape x_start)).data noise)

theorem broadcast_mul_length {α : Type} [Mul α] (c : List α)
    (x : List (List α)) :
    (broadcast_mul c x).length = min c.length x.length := by
  simp [broadcast_mul]

theorem broadcast_mul_getD {α : Type} [Inhabited α] [Mul α] (c : List α)
    (x : List (List α)) (i : ℕ) (h1 : i < c.length) (h2 : i < x.length) :
    (broadcast_mul c x).getD i []
      = (x.getD i []).map (fun v => c.getD i default * v) := by
  unfold broadcast_mul
  rw [List.getD_eq_getElem _ _ (by rw [List.length_zipWith]; omega),
    List.getElem_zipWith, List.getD_eq_getElem _ _ h1,
    List.getD_eq_getElem _ _ h2]

theorem tensor_add_getD {α : Type} [Add α] (x y : List (List α)) (i : ℕ)
    (h1 : i < x.length) (h2 : i < y.length) :
    (tensor_add x y).getD i []
      = List.zipWith (fun u v => u + v) (x.getD i []) (y.getD i []) := by
  unfold tensor_add
  rw [List.getD_eq_getElem _ _ (by rw [List.length_zipWith]; omega),
    List.getElem_zipWith, List.getD_eq_getElem _ _ h1,
    List.getD_eq_getElem _ _ h2]

theorem zipWith_add_getD {α : Type} [Add α] (r1 r2 : List α) (p : ℕ)
    (d d1 d2 : α) (h1 : p < r1.length) (h2 : p < r2.length) :
    (List.zipWith (fun u v => u + v) r1 r2).getD p d
      = r1.getD p d1 + r2.getD p d2 := by
  rw [List.getD_eq_getElem _ _ (by rw [List.length_zipWith]; omega),
    List.getElem_zipWith, List.getD_eq_getElem _ _ h1,
    List.getD_eq_getElem _ _ h2]

theorem map_mul_getD {α : Type} [Mul α] (c : α) (row : List α) (p : ℕ)
    (d : α) (d' : α) (h : p < row.length) :
    (row.map (fun v => c * v)).getD p d = c * row.getD p d' := by
  rw [List.getD_eq_getElem _ _ (by simpa using h), List.getElem_map,
    List.getD_eq_getElem _ _ h]

theorem getD_map_of_lt {α β : Type} (f : α → β) (l : List α) (j : ℕ)
    (d : β) (d' : α) (h : j < l.length) :
    (l.map f).getD j d = f (l.getD j d') := by
  rw [List.getD_eq_getElem _ _ (by simpa using h), List.getElem_map,
    List.getD_eq_getElem _ _ h]

/-- C2: with the module tables `sqrt_alphas_cumprod = tf.sqrt(alphas_cumprod)`
and `sqrt_one_minus_alphas_cumprod = tf.sqrt(1 - alphas_cumprod)`, `q_sample`
computes `sqrt(alphas_cumprod[t_i]) * x_start[i] +
sqrt(1 - alphas_cumprod[t_i]) * noise[i]` at every entry, the per-batch
scalars broadcast over all non-batch positions.  It is a pure function of
`(x_start, t, noise)` (hence deterministic), and it never mutates the
tables. -/
theorem q_sample_closed_form (x n : List (List ℝ)) (t : List ℕ)
    (hb : t.length = x.length) (hnb : n.length = x.length)
    (ht : ∀ j ∈ t, j < 200) (i p : ℕ) (hi : i < x.length)
    (hp : p < (x.getD i []).length)
    (hrow : (n.getD i []).length = (x.getD i []).length) :
    ((q_sample (alphas_cumprod.map (fun (q : ℚ) => Real.sqrt (q : ℝ)))
        (alphas_cumprod.map (fun (q : ℚ) => Real.sqrt (1 - (q : ℝ))))
        x t n).getD i []).getD p 0
      = Real.sqrt ((alphas_cumprod.getD (t.getD i 0) 0 : ℚ) : ℝ)
          * ((x.getD i []).getD p 0)
        + Real.sqrt (1 - ((alphas_cumprod.getD (t.getD i 0) 0 : ℚ) : ℝ))
          * ((n.getD i []).getD p 0) := by
  have hit : i < t.length := by rw [hb]; exact hi
  have hin : i < n.length := by rw [hnb]; exact hi
  have hti200 : t.getD i 0 < 200 := by
    rw [List.getD_eq_getElem t 0 hit]
    exact ht _ (List.getElem_mem hit)
  have hAl : (alphas_cumprod.map (fun (q : ℚ) => Real.sqrt (q : ℝ))).length
      = 200 := by rw [List.length_map, alphas_cumprod_length]
  have hBl : (alphas_cumprod.map
      (fun (q : ℚ) => Real.sqrt (1 - (q : ℝ)))).length = 200 := by
    rw [List.length_map, alphas_cumprod_length]
  have hdAl : (extract (alphas_cumprod.map (fun (q : ℚ) => Real.sqrt (q : ℝ)))
      t (tensor_shape x)).data.length = t.length := extract_data_length _ _ _
  have hdBl : (extract (alphas_cumprod.map
      (fun (q : ℚ) => Real.sqrt (1 - (q : ℝ))))
      t (tensor_shape x)).data.length = t.length := extract_data_length _ _ _
  unfold q_sample
  rw [tensor_add_getD _ _ i
    (by rw [broadcast_mul_length, hdAl]; omega)
    (by rw [broadcast_mul_length, hdBl]; omega)]
  rw [broadcast_mul_getD _ _ i (by rw [hdAl]; exact hit) hi,
    broadcast_mul_getD _ _ i (by rw [hdBl]; exact hit) hin]
  rw [zipWith_add_getD _ _ p 0 0 0
    (by rw [List.length_map]; exact hp)
    (by rw [List.length_map, hrow]; exact hp)]
  rw [map_mul_getD _ _ p 0 0 hp, map_mul_getD _ _ p 0 0 (by rw [hrow]; exact hp)]
  rw [extract_data_getD _ _ _ i hit, extract_data_getD _ _ _ i hit]
  have hacb : t.getD i 0 < alphas_cumprod.length := by
    rw [alphas_cumprod_length]; exact hti200
  rw [getD_map_of_lt (fun (q : ℚ) => Real.sqrt (q : ℝ)) alphas_cumprod
      (t.getD i 0) default 0 hacb,
    getD_map_of_lt (fun (q : ℚ) => Real.sqrt (1 - (q : ℝ))) alphas_cumprod
      (t.getD i 0) default 0 hacb]

theorem q_sample_closed_form_witness :
    ((q_sample (alphas_cumprod.map (fun (q : ℚ) => Real.sqrt (q : ℝ)))
        (alphas_cumprod.map (fun (q : ℚ) => Real.sqrt (1 - (q : ℝ))))
        [[2]] [0] [[3]]).getD 0 []).getD 0 0
      = Real.sqrt ((alphas_cumprod.getD (([0] : List ℕ).getD 0 0) 0 : ℚ) : ℝ)
          * ((([[2]] : List (List ℝ)).getD 0 []).getD 0 0)
        + Real.sqrt (1 - ((alphas_cumprod.getD (([0] : List ℕ).getD 0 0) 0 : ℚ) : ℝ))
          * ((([[3]] : List (List ℝ)).getD 0 []).getD 0 0) :=
  q_sample_closed_form [[2]] [[3]] [0] rfl rfl (by decide) 0 0 (by simp)
    (by simp) (by simp)

/-- Truncation toward zero of a rational: the semantics of the C-style
float-to-integer conversion performed by `tf.cast` to an integer dtype. -/
def ratTrunc (q : ℚ) : ℤ := if 0 ≤ q then ⌊q⌋ else -⌊-q⌋

/-- `tf.cast(x, tf.uint8)`: truncate toward zero, then wrap around modulo
`2^8` (two's-complement wraparound, no saturation). -/
def castUint8 (x : ℚ) : ℕ := ((ratTrunc x) % 256).toNat

/-- One pixel of the inverse image transform `reverse_transform`:
`(x + 1) * 255 / 2`, cast to uint8; no clipping anywhere in the pipeline. -/
def reverse_transform_pixel (x : ℚ) : ℕ := castUint8 ((x + 1) * 255 / 2)

/-- The inverse transform on a `(C, H, W)` tensor: the pixel value map
composed with the permute `(1, C, H, W) → (1, H, W, C)`. -/
def reverse_transform {C H W : ℕ} (data : Fin C → Fin H → Fin W → ℚ) :
    Fin H → Fin W → Fin C → ℕ :=
  fun h w c => reverse_transform_pixel (data c h w)

/-- C10: `reverse_transform` computes `(x + 1) * 255 / 2` and casts to uint8
without clamping.  For `x ∈ [-1, 1]` the result is the plain truncation and
lies in `[0, 255]`; outside that interval the cast wraps modulo `2^8` instead
of saturating: `x = 6/5` (value `280.5`) yields pixel `280 % 256 = 24`, not
`255`. -/
theorem reverse_transform_pixel_spec :
    (∀ x : ℚ, -1 ≤ x → x ≤ 1 →
      reverse_transform_pixel x ≤ 255 ∧
        (reverse_transform_pixel x : ℤ) = ratTrunc ((x + 1) * 255 / 2)) ∧
      reverse_transform_pixel (6 / 5) = 24 ∧ (24 : ℕ) ≠ 255 := by
  refine ⟨?_, ?_, by norm_num⟩
  · intro x hx1 hx2
    have hv0 : 0 ≤ (x + 1) * 255 / 2 := by linarith
    have hv255 : (x + 1) * 255 / 2 ≤ 255 := by linarith
    have htr : ratTrunc ((x + 1) * 255 / 2) = ⌊(x + 1) * 255 / 2⌋ := by
      unfold ratTrunc
      rw [if_pos hv0]
    have hf0 : (0 : ℤ) ≤ ⌊(x + 1) * 255 / 2⌋ := Int.floor_nonneg.mpr hv0
    have hf255 : ⌊(x + 1) * 255 / 2⌋ ≤ 255 := by
      have hm := Int.floor_le_floor hv255
      simpa using hm
    have hpix : reverse_transform_pixel x = (⌊(x + 1) * 255 / 2⌋).toNat := by
      unfold reverse_transform_pixel castUint8
      rw [htr, Int.emod_eq_of_lt hf0 (by omega)]
    rw [hpix, htr]
    omega
  · have h65 : ((6 : ℚ) / 5 + 1) * 255 / 2 = 561 / 2 := by norm_num
    have hfl : ⌊(561 / 2 : ℚ)⌋ = 280 := by norm_num [Int.floor_eq_iff]
    unfold reverse_transform_pixel castUint8 ratTrunc
    rw [h65, if_pos (by norm_num), hfl]
    decide

theorem reverse_transform_pixel_spec_witness :
    reverse_transform_pixel (1 / 2) ≤ 255 ∧
      (reverse_transform_pixel (1 / 2) : ℤ)
        = ratTrunc ((1 / 2 + 1) * 255 / 2) :=
  reverse_transform_pixel_spec.1 (1 / 2) (by norm_num) (by norm_num)

/-- `kernel_init(scale)` builds
`VarianceScaling(max(scale, 1e-10), mode="fan_avg", distribution="uniform")`;
the `max` clamp keeps the variance-scaling scale strictly positive, so
`kernel_init(0.0)` is NOT the zero initializer. -/
def kernel_init_scale (scale : ℚ) : ℚ := max scale (1 / 10000000000)

/-- The squared half-width of the uniform distribution drawn by
`VarianceScaling(scale, mode="fan_avg", distribution="uniform")`:
`limit^2 = 3 * scale / fan_avg`. -/
def variance_scaling_limit_sq (scale fan_avg : ℚ) : ℚ := 3 * scale / fan_avg

/-- Global `first_conv_channels = 64`: the stem convolution and the time
embedding width of `build_model` read this module-level constant (not
`widths[0]`). -/
def first_conv_channels : ℕ := 64

/-- The shape `[batch, height, width, channels]` of a rank-4 tensor flowing
through the U-Net builder. -/
structure Shape4 where
  b : ℕ
  h : ℕ
  w : ℕ
  c : ℕ
deriving DecidableEq, Repr

/-- Shape semantics of `layers.Conv2D(filters, kernel_size, padding="same")`
(stride 1): spatial size preserved, channels become `filters`. -/
def conv2dShape (filters : ℕ) (s : Shape4) : Shape4 :=
  ⟨s.b, s.h, s.w, filters⟩

/-- Shape semantics of a stride-2 `padding="same"` convolution:
spatial size `ceil(n / 2)`, channels become `filters`. -/
def conv2dStride2Shape (filters : ℕ) (s : Shape4) : Shape4 :=
  ⟨s.b, (s.h + 1) / 2, (s.w + 1) / 2, filters⟩

/-- Shape semantics of `layers.UpSampling2D(size=2)`: spatial doubling. -/
def upSampling2Shape (s : Shape4) : Shape4 :=
  ⟨s.b, 2 * s.h, 2 * s.w, s.c⟩

/-- Channel precondition of `layers.GroupNormalization(groups)` when the
layer is built on a channels-last input with `dim` channels (Keras
`GroupNormalization.build`): it raises a `ValueError` unless
`groups ≤ dim` and `dim % groups == 0`; `groups = 0` always dies, on the
`ZeroDivisionError` of `dim % 0`. -/
def groupNormOk (groups dim : ℕ) : Bool :=
  decide (0 < groups) && decide (groups ≤ dim) && decide (dim % groups = 0)

/-- Shape semantics of `ResidualBlock(width, groups)`: the first group norm
is built on the incoming channel count and the second on `width` (the output
of the first 3x3 conv); either incompatibility is a construction-time
`ValueError`, modelled by `none`.  Activations, the time-embedding broadcast
add and the residual add preserve the shape; the two 3x3 `same` convolutions
(and the 1x1 residual projection, when the input width differs) set the
channel count to `width`. -/
def ResidualBlockShape (width groups : ℕ) (s : Shape4) : Option Shape4 :=
  if groupNormOk groups s.c && groupNormOk groups width then
    some (conv2dShape width (conv2dShape width s))
  else none

/-- Shape semantics of `AttentionBlock(units, groups)`: the group norm is
built on the incoming channel count (`none` on incompatibility); the dense
query/key/value/proj layers act per spatial position, and the output
`inputs + proj` has `units` channels (the block is always called with
`units` equal to the incoming channel count). -/
def AttentionBlockShape (units groups : ℕ) (s : Shape4) : Option Shape4 :=
  if groupNormOk groups s.c then some ⟨s.b, s.h, s.w, units⟩ else none

/-- Shape semantics of `DownSample(width)`: one stride-2 conv. -/
def DownSampleShape (width : ℕ) (s : Shape4) : Shape4 :=
  conv2dStride2Shape width s

/-- Shape semantics of `UpSample(width)`: nearest-neighbour doubling then a
3x3 `same` conv. -/
def UpSampleShape (width : ℕ) (s : Shape4) : Shape4 :=
  conv2dShape width (upSampling2Shape s)

/-- Shape semantics of `layers.Concatenate(axis=-1)` of two rank-4 tensors:
requires matching batch and spatial dims, channels add; a mismatch is a
construction-time error (`none`). -/
def concatShape (x y : Shape4) : Option Shape4 :=
  if x.b = y.b ∧ x.h = y.h ∧ x.w = y.w then
    some ⟨x.b, x.h, x.w, x.c + y.c⟩
  else none

/-- One `ResidualBlock(widths[i], norm_groups)` followed by
`AttentionBlock(widths[i], norm_groups)` when level `i` is flagged attentive
-- the block pattern shared by the encoder and decoder loops of
`build_model`; `none` when a group norm rejects its channel count. -/
def levelBlockShape (width groups : ℕ) (attn : Bool) (s : Shape4) :
    Option Shape4 :=
  (ResidualBlockShape width groups s).bind (fun x =>
    if attn then AttentionBlockShape width groups x else some x)

/-- The `for _ in range(num_res_blocks)` inner loop of the encoder: apply the
level block `n` times, appending (pushing) each output onto the skip list
(the head of the list is the top of the stack; the source appends at the end
and pops from the end) and counting the pushes; `none` as soon as a block
fails to build. -/
def downBlocks (width groups : ℕ) (attn : Bool) :
    ℕ → Shape4 → List Shape4 → ℕ → Option (Shape4 × List Shape4 × ℕ)
  | 0, x, skips, pushes => some (x, skips, pushes)
  | n + 1, x, skips, pushes =>
    match levelBlockShape width groups attn x with
    | none => none
    | some x' => downBlocks width groups attn n x' (x' :: skips) (pushes + 1)

/-- The encoder (`DownBlock`) loop of `build_model` over the per-level pairs
`(widths[i], has_attention[i])`: `num_res_blocks` blocks with a push each,
then -- when `widths[i] != widths[-1]` -- a `DownSample(widths[i])` whose
output is also pushed. -/
def downLevels (wlast nrb groups : ℕ) :
    List (ℕ × Bool) → Shape4 → List Shape4 → ℕ →
      Option (Shape4 × List Shape4 × ℕ)
  | [], x, skips, pushes => some (x, skips, pushes)
  | (w, a) :: rest, x, skips, pushes =>
    match downBlocks w groups a nrb x skips pushes with
    | none => none
    | some r =>
      if w ≠ wlast then
        let xd := DownSampleShape w r.1
        downLevels wlast nrb groups rest xd (xd :: r.2.1) (r.2.2 + 1)
      else
        downLevels wlast nrb groups rest r.1 r.2.1 r.2.2

/-- The `for _ in range(num_res_blocks + 1)` inner loop of the decoder: pop a
skip tensor (failing on an empty skip list), concatenate channelwise, apply
the level block; `pops` counts successful pops. -/
def upBlocks (width groups : ℕ) (attn : Bool) :
    ℕ → Shape4 → List Shape4 → ℕ → Option (Shape4 × List Shape4 × ℕ)
  | 0, x, skips, pops => some (x, skips, pops)
  | n + 1, x, skips, pops =>
    match skips with
    | [] => none
    | sk :: skips' =>
      match concatShape x sk with
      | none => none
      | some xc =>
        match levelBlockShape width groups attn xc with
        | none => none
        | some x' => upBlocks width groups attn n x' skips' (pops + 1)

/-- The decoder (`UpBlock`) loop of `build_model` over
`reversed(enumerate(zip(widths, has_attention)))`: `num_res_blocks + 1`
pop/concat/block steps per level, then `UpSample(widths[i])` for every level
except `i = 0`. -/
def upLevels (nrb groups : ℕ) :
    List (ℕ × ℕ × Bool) → Shape4 → List Shape4 → ℕ →
      Option (Shape4 × List Shape4 × ℕ)
  | [], x, skips, pops => some (x, skips, pops)
  | (i, w, a) :: rest, x, skips, pops =>
    match upBlocks w groups a (nrb + 1) x skips pops with
    | none => none
    | some r =>
      let x' := if i ≠ 0 then UpSampleShape w r.1 else r.1
      upLevels nrb groups rest x' r.2.1 r.2.2

/-- Result of a successful `build_model` construction: the output tensor
shape, the number of tensors pushed onto the skip list (the initial
`skips = [x]` stem push included) and the number popped. -/
structure BuildOut where
  out : Shape4
  pushes : ℕ
  pops : ℕ
deriving DecidableEq, Repr

/-- Shape semantics of `build_model(img_size, img_channels, widths,
has_attention, num_res_blocks, norm_groups)` applied to a batch of size
`batch`:
stem conv to `first_conv_channels` with `skips = [x]`; encoder loop; middle
`ResidualBlock(widths[-1])` / `AttentionBlock(widths[-1])` /
`ResidualBlock(widths[-1])`; decoder loop; end block: a
`GroupNormalization(norm_groups)` on the decoder output followed by
`Conv2D(3, ...)` -- the output channel count is the hardcoded constant 3,
not `img_channels`.  Fails (`none`) when `has_attention` is shorter than
`widths` (an index error in the source), when `widths` is empty
(`widths[-1]` raises), when a skip pop finds an empty list, when a
concatenation meets mismatched spatial dims, or when any
`GroupNormalization(norm_groups)` -- inside a residual or attention block,
or the final one -- is built on a channel count that `norm_groups` does not
divide (or exceeds). -/
def build_model_shape (batch img_size img_channels : ℕ) (widths : List ℕ)
    (has_attention : List Bool) (num_res_blocks norm_groups : ℕ) :
    Option BuildOut :=
  if has_attention.length < widths.length then none
  else
    match widths.getLast? with
    | none => none
    | some wlast =>
      match downLevels wlast num_res_blocks norm_groups
          (widths.zip has_attention)
          (conv2dShape first_conv_channels
            ⟨batch, img_size, img_size, img_channels⟩)
          [conv2dShape first_conv_channels
            ⟨batch, img_size, img_size, img_channels⟩] 1 with
      | none => none
      | some enc =>
        match ResidualBlockShape wlast norm_groups enc.1 with
        | none => none
        | some m1 =>
          match AttentionBlockShape wlast norm_groups m1 with
          | none => none
          | some m2 =>
            match ResidualBlockShape wlast norm_groups m2 with
            | none => none
            | some xm =>
              match upLevels num_res_blocks norm_groups
                  ((widths.zip has_attention).enum.reverse) xm enc.2.1 0 with
              | none => none
              | some dec =>
                if groupNormOk norm_groups dec.1.c then
                  some ⟨conv2dShape 3 dec.1, enc.2.2, dec.2.2⟩
                else none

theorem downBlocks_counts (w g : ℕ) (a : Bool) :
    ∀ (n : ℕ) (x : Shape4) (skips : List Shape4) (p : ℕ)
      (r : Shape4 × List Shape4 × ℕ),
      downBlocks w g a n x skips p = some r →
      r.2.1.length = skips.length + n ∧ r.2.2 = p + n := by
  intro n
  induction n with
  | zero =>
    intro x skips p r h
    simp only [downBlocks, Option.some.injEq] at h
    subst h
    simp
  | succ n ih =>
    intro x skips p r h
    rcases hlb : levelBlockShape w g a x with _ | x'
    · simp [downBlocks, hlb] at h
    · simp only [downBlocks, hlb] at h
      obtain ⟨h1, h2⟩ := ih x' (x' :: skips) (p + 1) r h
      rw [h1, h2, List.length_cons]
      omega

theorem downLevels_counts (wlast nrb g : ℕ) :
    ∀ (lvls : List (ℕ × Bool)) (x : Shape4) (skips : List Shape4) (p : ℕ)
      (r : Shape4 × List Shape4 × ℕ),
      downLevels wlast nrb g lvls x skips p = some r →
      r.2.1.length = skips.length + nrb * lvls.length
          + lvls.countP (fun wa => decide (wa.1 ≠ wlast)) ∧
        r.2.2 = p + nrb * lvls.length
          + lvls.countP (fun wa => decide (wa.1 ≠ wlast)) := by
  intro lvls
  induction lvls with
  | nil =>
    intro x skips p r h
    simp only [downLevels, Option.some.injEq] at h
    subst h
    simp
  | cons wa rest ih =>
    intro x skips p r h
    obtain ⟨w, a⟩ := wa
    rcases hdb : downBlocks w g a nrb x skips p with _ | rb
    · simp [downLevels, hdb] at h
    · simp only [downLevels, hdb] at h
      obtain ⟨hb1, hb2⟩ := downBlocks_counts w g a nrb x skips p rb hdb
      by_cases hw : w ≠ wlast
      · rw [if_pos hw] at h
        obtain ⟨hr1, hr2⟩ := ih (DownSampleShape w rb.1)
          (DownSampleShape w rb.1 :: rb.2.1) (rb.2.2 + 1) r h
        rw [hr1, hr2, List.length_cons, hb1, hb2, List.countP_cons,
          List.length_cons]
        have hmul : nrb * (rest.length + 1) = nrb * rest.length + nrb := by ring
        simp only [decide_eq_true_eq, if_pos hw]
        omega
      · rw [if_neg hw] at h
        obtain ⟨hr1, hr2⟩ := ih rb.1 rb.2.1 rb.2.2 r h
        rw [hr1, hr2, hb1, hb2, List.countP_cons, List.length_cons]
        have hmul : nrb * (rest.length + 1) = nrb * rest.length + nrb := by ring
        have hwf : (decide (w ≠ wlast)) = false := by
          simpa using hw
        rw [hwf]
        have hzero : (if (false = true) then 1 else 0) = 0 := rfl
        rw [hzero]
        omega

theorem upBlocks_counts (w g : ℕ) (a : Bool) :
    ∀ (n : ℕ) (x : Shape4) (skips : List Shape4) (p : ℕ)
      (r : Shape4 × List Shape4 × ℕ),
      upBlocks w g a n x skips p = some r →
      skips.length = r.2.1.length + n ∧ r.2.2 = p + n := by
  intro n
  induction n with
  | zero =>
    intro x skips p r h
    simp only [upBlocks, Option.some.injEq] at h
    subst h
    simp
  | succ n ih =>
    intro x skips p r h
    cases skips with
    | nil => simp [upBlocks] at h
    | cons sk skips' =>
      rcases hc : concatShape x sk with _ | xc
      · simp [upBlocks, hc] at h
      · rcases hlb : levelBlockShape w g a xc with _ | x'
        · simp [upBlocks, hc, hlb] at h
        · simp only [upBlocks, hc, hlb] at h
          obtain ⟨h1, h2⟩ := ih x' skips' (p + 1) r h
          rw [List.length_cons, h1, h2]
          omega

theorem upLevels_counts (nrb g : ℕ) :
    ∀ (lvls : List (ℕ × ℕ × Bool)) (x : Shape4) (skips : List Shape4)
      (p : ℕ) (r : Shape4 × List Shape4 × ℕ),
      upLevels nrb g lvls x skips p = some r →
      skips.length = r.2.1.length + (nrb + 1) * lvls.length ∧
        r.2.2 = p + (nrb + 1) * lvls.length := by
  intro lvls
  induction lvls with
  | nil =>
    intro x skips p r h
    simp only [upLevels, Option.some.injEq] at h
    subst h
    simp
  | cons iwa rest ih =>
    intro x skips p r h
    obtain ⟨i, w, a⟩ := iwa
    rcases hub : upBlocks w g a (nrb + 1) x skips p with _ | rb
    · simp [upLevels, hub] at h
    · simp only [upLevels, hub] at h
      obtain ⟨hb1, hb2⟩ := upBlocks_counts w g a (nrb + 1) x skips p rb hub
      obtain ⟨h1, h2⟩ := ih _ rb.2.1 rb.2.2 r h
      have hmul : (nrb + 1) * (rest.length + 1)
          = (nrb + 1) * rest.length + (nrb + 1) := by ring
      rw [List.length_cons, hmul]
      omega

theorem countP_lt_length_of_exists {α : Type} (q : α → Bool) (l : List α)
    (x : α) (hx : x ∈ l) (hqx : q x = false) : l.countP q < l.length := by
  induction l with
  | nil => cases hx
  | cons y ys ih =>
    rw [List.countP_cons, List.length_cons]
    have hle := List.countP_le_length (p := q) (l := ys)
    rcases List.mem_cons.mp hx with rfl | hm
    · rw [hqx]
      simp only [if_false, Bool.false_eq_true]
      omega
    · have hlt := ih hm
      have hsplit : (if q y = true then 1 else 0) ≤ 1 := by
        split <;> omega
      omega

/-- C3: whenever `build_model` constructs successfully, the number of tensors
pushed onto the skip list during the encoder pass (stem push and downsample
pushes included) equals the number popped during the decoder pass, and the
decoder pops exactly `num_res_blocks + 1` tensors per resolution level; the
simulation returns `none` on any pop of an empty skip list, so success also
certifies that no such pop occurs. -/
theorem skip_stack_balanced (batch img_size img_channels : ℕ)
    (widths : List ℕ) (has_attention : List Bool) (nrb g : ℕ) (bo : BuildOut)
    (h : build_model_shape batch img_size img_channels widths has_attention
        nrb g = some bo) :
    bo.pushes = bo.pops ∧ bo.pops = widths.length * (nrb + 1) := by
  simp only [build_model_shape] at h
  split at h
  · exact absurd h (by simp)
  next hlen =>
  split at h
  · exact absurd h (by simp)
  next wlast hlast =>
  split at h
  · exact absurd h (by simp)
  next enc henc =>
  split at h
  · exact absurd h (by simp)
  next m1 hm1 =>
  split at h
  · exact absurd h (by simp)
  next m2 hm2 =>
  split at h
  · exact absurd h (by simp)
  next xm hxm =>
  split at h
  · exact absurd h (by simp)
  next dec hdec =>
  split at h
  case isFalse => exact absurd h (by simp)
  case isTrue hgn =>
  simp only [Option.some.injEq] at h
  obtain ⟨he1, he2⟩ := downLevels_counts wlast nrb g (widths.zip has_attention)
    (conv2dShape first_conv_channels ⟨batch, img_size, img_size, img_channels⟩)
    [conv2dShape first_conv_channels ⟨batch, img_size, img_size, img_channels⟩]
    1 enc henc
  obtain ⟨hu1, hu2⟩ := upLevels_counts nrb g
    ((widths.zip has_attention).enum.reverse) xm enc.2.1 0 dec hdec
  -- basic lengths
  have hwne : widths ≠ [] := by
    intro e
    rw [e] at hlast
    cases hlast
  have hwpos : 0 < widths.length := List.length_pos.mpr hwne
  have hzlen : (widths.zip has_attention).length = widths.length := by
    rw [List.length_zip]
    omega
  have hrevlen : ((widths.zip has_attention).enum.reverse).length
      = widths.length := by
    rw [List.length_reverse, List.enum_length, hzlen]
  -- the last zip entry defeats the downsample predicate
  have hwlast : widths.getLast? = some wlast := hlast
  have hidx : widths.length - 1 < widths.length := by omega
  have hlast_elem : widths[widths.length - 1] = wlast := by
    rw [List.getLast?_eq_getElem?] at hwlast
    rw [List.getElem?_eq_getElem hidx] at hwlast
    exact Option.some.inj hwlast
  have hzidx : widths.length - 1 < (widths.zip has_attention).length := by
    omega
  have hzelem : ((widths.zip has_attention)[widths.length - 1]).1
      = wlast := by
    rw [List.getElem_zip]
    exact hlast_elem
  have hmem : (widths.zip has_attention)[widths.length - 1]
      ∈ widths.zip has_attention := List.getElem_mem hzidx
  have hpredf : (fun wa : ℕ × Bool => decide (wa.1 ≠ wlast))
      ((widths.zip has_attention)[widths.length - 1]) = false := by
    simp only [decide_eq_false_iff_not, ne_eq, not_not]
    exact hzelem
  have hD := countP_lt_length_of_exists
    (fun wa : ℕ × Bool => decide (wa.1 ≠ wlast)) (widths.zip has_attention)
    _ hmem hpredf
  rw [hzlen] at hD he1 he2
  rw [hrevlen] at hu1 hu2
  -- assemble
  rw [← h]
  simp only [List.length_cons, List.length_nil] at he1 he2
  have hmul1 : (nrb + 1) * widths.length
      = nrb * widths.length + widths.length := by ring
  have hmul2 : widths.length * (nrb + 1)
      = nrb * widths.length + widths.length := by ring
  constructor
  · show enc.2.2 = dec.2.2
    omega
  · show dec.2.2 = widths.length * (nrb + 1)
    omega

theorem skip_stack_balanced_witness :
    ∃ bo : BuildOut,
      build_model_shape 1 8 3 [4, 8] [false, false] 1 1 = some bo ∧
        bo.pushes = bo.pops ∧ bo.pops = 2 * (1 + 1) := by
  refine ⟨⟨⟨1, 8, 8, 3⟩, 4, 4⟩, by decide, ?_⟩
  exact skip_stack_balanced 1 8 3 [4, 8] [false, false] 1 1 _ (by decide)

theorem groupNormOk_iff (g c : ℕ) :
    groupNormOk g c = true ↔ 0 < g ∧ g ≤ c ∧ c % g = 0 := by
  unfold groupNormOk
  simp [and_assoc]

theorem groupNormOk_of_dvd (g c : ℕ) (hg : 0 < g) (hd : g ∣ c)
    (hc : 0 < c) : groupNormOk g c = true := by
  rw [groupNormOk_iff]
  refine ⟨hg, Nat.le_of_dvd hc hd, ?_⟩
  obtain ⟨k, rfl⟩ := hd
  exact Nat.mul_mod_right g k

theorem groupNormOk_add (g c1 c2 : ℕ) (h1 : groupNormOk g c1 = true)
    (h2 : groupNormOk g c2 = true) : groupNormOk g (c1 + c2) = true := by
  rw [groupNormOk_iff] at h1 h2 ⊢
  obtain ⟨hg, hle1, hm1⟩ := h1
  obtain ⟨_, hle2, hm2⟩ := h2
  refine ⟨hg, by omega, ?_⟩
  obtain ⟨k, hk⟩ : g ∣ c1 + c2 :=
    dvd_add (Nat.dvd_of_mod_eq_zero hm1) (Nat.dvd_of_mod_eq_zero hm2)
  rw [hk]
  exact Nat.mul_mod_right g k

theorem ResidualBlockShape_eq (w g : ℕ) (s : Shape4)
    (hc : groupNormOk g s.c = true) (hw : groupNormOk g w = true) :
    ResidualBlockShape w g s = some ⟨s.b, s.h, s.w, w⟩ := by
  unfold ResidualBlockShape
  rw [hc, hw]
  rfl

theorem AttentionBlockShape_eq (u g : ℕ) (s : Shape4)
    (hc : groupNormOk g s.c = true) :
    AttentionBlockShape u g s = some ⟨s.b, s.h, s.w, u⟩ := by
  unfold AttentionBlockShape
  rw [hc]
  rfl

theorem levelBlockShape_eq (width g : ℕ) (attn : Bool) (s : Shape4)
    (hc : groupNormOk g s.c = true) (hw : groupNormOk g width = true) :
    levelBlockShape width g attn s = some ⟨s.b, s.h, s.w, width⟩ := by
  unfold levelBlockShape
  rw [ResidualBlockShape_eq width g s hc hw, Option.some_bind]
  cases attn
  · rfl
  · exact AttentionBlockShape_eq width g ⟨s.b, s.h, s.w, width⟩ hw

theorem downBlocks_spec (w g : ℕ) (a : Bool) (bb H : ℕ)
    (hw : groupNormOk g w = true) :
    ∀ (n : ℕ) (c : ℕ), groupNormOk g c = true →
      ∀ (skips : List Shape4) (p : ℕ),
      ∃ c', groupNormOk g c' = true ∧
        downBlocks w g a n ⟨bb, H, H, c⟩ skips p
          = some (⟨bb, H, H, c'⟩, List.replicate n ⟨bb, H, H, w⟩ ++ skips,
              p + n) := by
  intro n
  induction n with
  | zero => intro c hc skips p; exact ⟨c, hc, rfl⟩
  | succ n ih =>
    intro c hc skips p
    simp only [downBlocks, levelBlockShape_eq w g a ⟨bb, H, H, c⟩ hc hw]
    obtain ⟨c', hc', hcf⟩ := ih w hw (⟨bb, H, H, w⟩ :: skips) (p + 1)
    refine ⟨c', hc', ?_⟩
    rw [hcf]
    have harith : p + 1 + n = p + (n + 1) := by omega
    have hlist : List.replicate n (⟨bb, H, H, w⟩ : Shape4)
          ++ ⟨bb, H, H, w⟩ :: skips
        = List.replicate (n + 1) (⟨bb, H, H, w⟩ : Shape4) ++ skips := by
      rw [List.replicate_succ', List.append_assoc]
      rfl
    rw [harith, hlist]

theorem upBlocks_consume (w g : ℕ) (a : Bool) (bb H : ℕ)
    (hw : groupNormOk g w = true) :
    ∀ (L : List Shape4) (r : ℕ) (x : Shape4) (S : List Shape4) (p : ℕ),
      (∀ y ∈ L, y.b = bb ∧ y.h = H ∧ y.w = H ∧ groupNormOk g y.c = true) →
      x.b = bb → x.h = H → x.w = H → groupNormOk g x.c = true →
      ∃ c', groupNormOk g c' = true ∧
        upBlocks w g a (L.length + r) x (L ++ S) p
          = upBlocks w g a r ⟨bb, H, H, c'⟩ S (p + L.length) := by
  intro L
  induction L with
  | nil =>
    intro r x S p _ hb hh hwd hxc
    refine ⟨x.c, hxc, ?_⟩
    have hx : x = ⟨bb, H, H, x.c⟩ := by
      cases x
      simp only [Shape4.mk.injEq]
      exact ⟨hb, hh, hwd, trivial⟩
    rw [← hx]
    simp
  | cons y L' ih =>
    intro r x S p hall hb hh hwd hxc
    have hy := hall y (List.mem_cons_self _ _)
    have hcons : (y :: L').length + r = (L'.length + r) + 1 := by
      rw [List.length_cons]
      omega
    rw [hcons]
    have hcat : concatShape x y = some ⟨bb, H, H, x.c + y.c⟩ := by
      unfold concatShape
      rw [if_pos ⟨by rw [hb, hy.1], by rw [hh, hy.2.1], by rw [hwd, hy.2.2.1]⟩]
      have hfields : (⟨x.b, x.h, x.w, x.c + y.c⟩ : Shape4)
          = ⟨bb, H, H, x.c + y.c⟩ := by
        rw [hb, hh, hwd]
      rw [hfields]
    have hcc : groupNormOk g (x.c + y.c) = true :=
      groupNormOk_add g x.c y.c hxc hy.2.2.2
    simp only [List.cons_append, upBlocks, hcat,
      levelBlockShape_eq w g a ⟨bb, H, H, x.c + y.c⟩ hcc hw]
    obtain ⟨c', hc', hcf⟩ := ih r ⟨bb, H, H, w⟩ S (p + 1)
      (fun z hz => hall z (List.mem_cons_of_mem _ hz)) rfl rfl rfl hw
    refine ⟨c', hc', ?_⟩
    rw [hcf]
    have harith : p + 1 + L'.length = p + (y :: L').length := by
      rw [List.length_cons]
      omega
    rw [harith]

theorem upBlocks_one (w g : ℕ) (a : Bool) (bb H c cs : ℕ) (S' : List Shape4)
    (p : ℕ) (hcc : groupNormOk g (c + cs) = true)
    (hw : groupNormOk g w = true) :
    upBlocks w g a 1 ⟨bb, H, H, c⟩ (⟨bb, H, H, cs⟩ :: S') p
      = some (⟨bb, H, H, w⟩, S', p + 1) := by
  have hcat : concatShape ⟨bb, H, H, c⟩ ⟨bb, H, H, cs⟩
      = some ⟨bb, H, H, c + cs⟩ := by
    unfold concatShape
    rw [if_pos ⟨rfl, rfl, rfl⟩]
  simp only [upBlocks, hcat,
    levelBlockShape_eq w g a ⟨bb, H, H, c + cs⟩ hcc hw]

theorem upLevels_append (nrb g : ℕ) :
    ∀ (l1 l2 : List (ℕ × ℕ × Bool)) (x : Shape4) (skips : List Shape4)
      (p : ℕ),
      upLevels nrb g (l1 ++ l2) x skips p
        = (upLevels nrb g l1 x skips p).bind
            (fun r => upLevels nrb g l2 r.1 r.2.1 r.2.2) := by
  intro l1
  induction l1 with
  | nil => intro l2 x skips p; rfl
  | cons iwa rest ih =>
    intro l2 x skips p
    obtain ⟨i, w, a⟩ := iwa
    rcases hub : upBlocks w g a (nrb + 1) x skips p with _ | r
    · simp only [List.cons_append, upLevels, hub, Option.none_bind]
    · simp only [List.cons_append, upLevels, hub, Option.some_bind]
      exact ih l2 _ _ _

theorem upLevels_last_level (nrb g k w : ℕ) (a : Bool) (bb H cd cs : ℕ)
    (S' : List Shape4) (p : ℕ) (hk : k ≠ 0)
    (hw : groupNormOk g w = true) (hcd : groupNormOk g cd = true)
    (hcs : groupNormOk g cs = true) :
    upLevels nrb g [(k, w, a)] ⟨bb, H, H, cd⟩
        (List.replicate nrb ⟨bb, H, H, w⟩ ++ ⟨bb, H, H, cs⟩ :: S') p
      = some (⟨bb, 2 * H, 2 * H, w⟩, S', p + (nrb + 1)) := by
  obtain ⟨c', hc', hc⟩ := upBlocks_consume w g a bb H hw
    (List.replicate nrb ⟨bb, H, H, w⟩) 1 ⟨bb, H, H, cd⟩
    (⟨bb, H, H, cs⟩ :: S') p
    (by
      intro y hy
      rw [List.eq_of_mem_replicate hy]
      exact ⟨rfl, rfl, rfl, hw⟩)
    rfl rfl rfl hcd
  rw [List.length_replicate] at hc
  simp only [upLevels, hc,
    upBlocks_one w g a bb H c' cs S' (p + nrb)
      (groupNormOk_add g c' cs hc' hcs) hw,
    if_pos hk]
  simp only [UpSampleShape, upSampling2Shape, conv2dShape]
  rfl

theorem upLevels_last_level_zero (nrb g w : ℕ) (a : Bool) (bb H cd cs : ℕ)
    (S' : List Shape4) (p : ℕ)
    (hw : groupNormOk g w = true) (hcd : groupNormOk g cd = true)
    (hcs : groupNormOk g cs = true) :
    upLevels nrb g [(0, w, a)] ⟨bb, H, H, cd⟩
        (List.replicate nrb ⟨bb, H, H, w⟩ ++ ⟨bb, H, H, cs⟩ :: S') p
      = some (⟨bb, H, H, w⟩, S', p + (nrb + 1)) := by
  obtain ⟨c', hc', hc⟩ := upBlocks_consume w g a bb H hw
    (List.replicate nrb ⟨bb, H, H, w⟩) 1 ⟨bb, H, H, cd⟩
    (⟨bb, H, H, cs⟩ :: S') p
    (by
      intro y hy
      rw [List.eq_of_mem_replicate hy]
      exact ⟨rfl, rfl, rfl, hw⟩)
    rfl rfl rfl hcd
  rw [List.length_replicate] at hc
  simp only [upLevels, hc,
    upBlocks_one w g a bb H c' cs S' (p + nrb)
      (groupNormOk_add g c' cs hc' hcs) hw]
  norm_num
  omega

theorem downLevels_last_level (nrb g bb H cx cs wlast : ℕ) (a : Bool)
    (S' : List Shape4) (p0 : ℕ)
    (hwl : groupNormOk g wlast = true) (hcx : groupNormOk g cx = true) :
    ∃ ce, groupNormOk g ce = true ∧
      downLevels wlast nrb g [(wlast, a)] ⟨bb, H, H, cx⟩
        (⟨bb, H, H, cs⟩ :: S') p0
      = some (⟨bb, H, H, ce⟩,
          List.replicate nrb ⟨bb, H, H, wlast⟩ ++ ⟨bb, H, H, cs⟩ :: S',
          p0 + nrb) := by
  obtain ⟨c', hc', hc⟩ := downBlocks_spec wlast g a bb H hwl nrb cx hcx
    (⟨bb, H, H, cs⟩ :: S') p0
  refine ⟨c', hc', ?_⟩
  simp only [downLevels, hc]
  rw [if_neg (by simp)]

theorem downLevels_step (nrb g bb H cx cs w wlast : ℕ) (a : Bool)
    (rest : List (ℕ × Bool)) (S' : List Shape4) (p0 : ℕ)
    (hw : w ≠ wlast) (heven : 2 ∣ H)
    (hgw : groupNormOk g w = true) (hcx : groupNormOk g cx = true) :
    downLevels wlast nrb g ((w, a) :: rest) ⟨bb, H, H, cx⟩
        (⟨bb, H, H, cs⟩ :: S') p0
      = downLevels wlast nrb g rest ⟨bb, H / 2, H / 2, w⟩
          (⟨bb, H / 2, H / 2, w⟩
            :: (List.replicate nrb ⟨bb, H, H, w⟩ ++ ⟨bb, H, H, cs⟩ :: S'))
          (p0 + nrb + 1) := by
  obtain ⟨c', hc', hc⟩ := downBlocks_spec w g a bb H hgw nrb cx hcx
    (⟨bb, H, H, cs⟩ :: S') p0
  have hH : (H + 1) / 2 = H / 2 := by omega
  simp only [downLevels, hc, if_pos hw, DownSampleShape, conv2dStride2Shape,
    hH]

theorem unet_suffix_roundtrip (nrb g bb : ℕ) :
    ∀ (lvls : List (ℕ × Bool)) (wlast : ℕ) (H k cx cs : ℕ)
      (S' : List Shape4) (p0 : ℕ),
      lvls ≠ [] →
      lvls.getLast?.map Prod.fst = some wlast →
      (∀ wa ∈ lvls.dropLast, wa.1 ≠ wlast) →
      (∀ wa ∈ lvls, groupNormOk g wa.1 = true) →
      2 ^ (lvls.length - 1) ∣ H →
      1 ≤ k →
      groupNormOk g cx = true →
      groupNormOk g cs = true →
      ∃ ce skipsE,
        groupNormOk g ce = true ∧
        downLevels wlast nrb g lvls ⟨bb, H, H, cx⟩ (⟨bb, H, H, cs⟩ :: S') p0
          = some
              (⟨bb, H / 2 ^ (lvls.length - 1), H / 2 ^ (lvls.length - 1), ce⟩,
                skipsE, p0 + lvls.length * nrb + (lvls.length - 1)) ∧
        ∀ cd p1, groupNormOk g cd = true →
          upLevels nrb g (List.enumFrom k lvls).reverse
              ⟨bb, H / 2 ^ (lvls.length - 1), H / 2 ^ (lvls.length - 1), cd⟩
              skipsE p1
            = some (⟨bb, 2 * H, 2 * H, (lvls.headD (0, false)).1⟩, S',
                p1 + lvls.length * (nrb + 1)) := by
  intro lvls
  induction lvls with
  | nil =>
    intro wlast H k cx cs S' p0 hne
    exact absurd rfl hne
  | cons wa rest ih =>
    intro wlast H k cx cs S' p0 _ hlast hbal hgok hdiv hk hgcx hgcs
    obtain ⟨w, a⟩ := wa
    have hgw : groupNormOk g w = true := hgok (w, a) (List.mem_cons_self _ _)
    cases rest with
    | nil =>
      have hw : w = wlast := by
        simp only [List.getLast?_singleton, Option.map_some'] at hlast
        exact Option.some.inj hlast
      subst hw
      simp only [List.length_cons, List.length_nil]
      norm_num
      obtain ⟨ce, hgce, hce⟩ := downLevels_last_level nrb g bb H cx cs w a S'
        p0 hgw hgcx
      refine ⟨ce, hgce, List.replicate nrb ⟨bb, H, H, w⟩ ++ ⟨bb, H, H, cs⟩
        :: S', hce, ?_⟩
      intro cd p1 hgcd
      exact upLevels_last_level nrb g k w a bb H cd cs S' p1 (by omega)
        hgw hgcd hgcs
    | cons r1 r2 =>
      have hw : w ≠ wlast :=
        hbal (w, a) (List.mem_cons_self _ _)
      have hlast' : (r1 :: r2).getLast?.map Prod.fst = some wlast := by
        rw [List.getLast?_cons_cons] at hlast
        exact hlast
      have hbal' : ∀ wa ∈ (r1 :: r2).dropLast, wa.1 ≠ wlast := by
        intro z hz
        exact hbal z (List.mem_cons_of_mem _ hz)
      have hgok' : ∀ wa ∈ (r1 :: r2), groupNormOk g wa.1 = true := by
        intro z hz
        exact hgok z (List.mem_cons_of_mem _ hz)
      have hlvlen : ((w, a) :: r1 :: r2).length - 1 = r2.length + 1 := by
        simp
      have hrestlen : (r1 :: r2).length - 1 = r2.length := by
        simp
      rw [hlvlen] at hdiv
      have heven : 2 ∣ H :=
        dvd_trans (dvd_pow_self 2 (by omega)) hdiv
      obtain ⟨q, hq⟩ := hdiv
      have h2len : (2 : ℕ) ^ (r2.length + 1) = 2 * 2 ^ r2.length := by
        rw [pow_succ']
      have hH2q : H / 2 = 2 ^ r2.length * q := by
        rw [hq, h2len, Nat.mul_assoc]
        exact Nat.mul_div_cancel_left _ (by norm_num)
      have hdiv' : 2 ^ ((r1 :: r2).length - 1) ∣ H / 2 := by
        rw [hrestlen]
        exact ⟨q, hH2q⟩
      have hspat : H / 2 / 2 ^ r2.length = H / 2 ^ (r2.length + 1) := by
        rw [Nat.div_div_eq_div_mul, ← h2len]
      obtain ⟨ce, skipsE, hgce, hienc, hidec⟩ := ih wlast (H / 2) (k + 1) w w
        (List.replicate nrb ⟨bb, H, H, w⟩ ++ ⟨bb, H, H, cs⟩ :: S')
        (p0 + nrb + 1) (by simp) hlast' hbal' hgok' hdiv' (by omega) hgw hgw
      rw [hrestlen] at hienc hidec
      refine ⟨ce, skipsE, hgce, ?_, ?_⟩
      · rw [downLevels_step nrb g bb H cx cs w wlast a (r1 :: r2) S' p0 hw
          heven hgw hgcx, hienc, hlvlen, hspat]
        have hp : p0 + nrb + 1 + (r1 :: r2).length * nrb + r2.length
            = p0 + ((w, a) :: r1 :: r2).length * nrb + (r2.length + 1) := by
          simp only [List.length_cons]
          ring_nf
        rw [hp]
      · intro cd p1 hgcd
        rw [hlvlen, List.enumFrom_cons, List.reverse_cons, upLevels_append]
        rw [← hspat]
        rw [hidec cd p1 hgcd]
        simp only [Option.some_bind]
        have h2H2 : 2 * (H / 2) = H := by omega
        rw [h2H2]
        have hhead : ((r1 :: r2).headD (0, false)).1 = r1.1 := by
          simp
        rw [hhead]
        have hgr1 : groupNormOk g r1.1 = true :=
          hgok r1 (List.mem_cons_of_mem _ (List.mem_cons_self _ _))
        rw [upLevels_last_level nrb g k w a bb H r1.1 cs S' _ (by omega)
          hgw hgr1 hgcs]
        have hp : p1 + (r1 :: r2).length * (nrb + 1) + (nrb + 1)
            = p1 + ((w, a) :: r1 :: r2).length * (nrb + 1) := by
          simp only [List.length_cons]
          ring_nf
        rw [hp]
        simp

theorem build_model_shape_eq (batch img_size img_channels : ℕ)
    (widths : List ℕ) (ha : List Bool) (nrb g wlast : ℕ)
    (hlen : ¬ ha.length < widths.length)
    (hlast : widths.getLast? = some wlast)
    (hgwl : groupNormOk g wlast = true)
    (enc dec : Shape4 × List Shape4 × ℕ)
    (henc : downLevels wlast nrb g (widths.zip ha)
        (conv2dShape first_conv_channels
          ⟨batch, img_size, img_size, img_channels⟩)
        [conv2dShape first_conv_channels
          ⟨batch, img_size, img_size, img_channels⟩] 1 = some enc)
    (hgenc : groupNormOk g enc.1.c = true)
    (hdec : upLevels nrb g ((widths.zip ha).enum.reverse)
        ⟨enc.1.b, enc.1.h, enc.1.w, wlast⟩ enc.2.1 0 = some dec)
    (hgdec : groupNormOk g dec.1.c = true) :
    build_model_shape batch img_size img_channels widths ha nrb g
      = some ⟨conv2dShape 3 dec.1, enc.2.2, dec.2.2⟩ := by
  have hm1 : ResidualBlockShape wlast g enc.1
      = some ⟨enc.1.b, enc.1.h, enc.1.w, wlast⟩ :=
    ResidualBlockShape_eq wlast g enc.1 hgenc hgwl
  have hm2 : AttentionBlockShape wlast g ⟨enc.1.b, enc.1.h, enc.1.w, wlast⟩
      = some ⟨enc.1.b, enc.1.h, enc.1.w, wlast⟩ :=
    AttentionBlockShape_eq wlast g ⟨enc.1.b, enc.1.h, enc.1.w, wlast⟩ hgwl
  have hm3 : ResidualBlockShape wlast g ⟨enc.1.b, enc.1.h, enc.1.w, wlast⟩
      = some ⟨enc.1.b, enc.1.h, enc.1.w, wlast⟩ :=
    ResidualBlockShape_eq wlast g ⟨enc.1.b, enc.1.h, enc.1.w, wlast⟩ hgwl hgwl
  simp only [build_model_shape, if_neg hlen, hlast, henc, hm1, hm2, hm3, hdec]
  rw [if_pos hgdec]

theorem zip_getLast_fst (ws : List ℕ) (bs : List Bool) (wl : ℕ)
    (hne : ws ≠ []) (hlen : ws.length ≤ bs.length)
    (hl : ws.getLast? = some wl) :
    (ws.zip bs).getLast?.map Prod.fst = some wl := by
  have hlen0 : 0 < ws.length := List.length_pos.mpr hne
  have hzlen : (ws.zip bs).length = ws.length := by
    rw [List.length_zip]
    omega
  have hidx : ws.length - 1 < ws.length := by omega
  have hidxz : ws.length - 1 < (ws.zip bs).length := by omega
  have helem : ws[ws.length - 1] = wl := by
    rw [List.getLast?_eq_getElem?, List.getElem?_eq_getElem hidx] at hl
    exact Option.some.inj hl
  rw [List.getLast?_eq_getElem?, hzlen, List.getElem?_eq_getElem hidxz,
    List.getElem_zip]
  simp only [Option.map_some']
  rw [helem]

/-- C1 fails on the code as stated: the final convolution of `build_model` is
`Conv2D(3, ...)` with a hardcoded 3 output channels, ignoring `img_channels`.
With `img_channels = 1` (widths `[4, 8]`, image size 8, `norm_groups = 1`, so
that every `GroupNormalization(1)` accepts its channel count and the model
really builds) the output shape `(1, 8, 8, 3)` differs from the input shape
`(1, 8, 8, 1)` in the channel dimension. -/
theorem build_model_channel_mismatch :
    build_model_shape 1 8 1 [4, 8] [false, false] 1 1
      = some ⟨⟨1, 8, 8, 3⟩, 4, 4⟩ ∧
      (⟨1, 8, 8, 3⟩ : Shape4) ≠ (⟨1, 8, 8, 1⟩ : Shape4) := by
  exact ⟨by decide, by decide⟩

/-- C1 amended: for every configuration satisfying the construction
invariants (nonempty `widths`, `has_attention` at least as long, the
skip-stack balance invariant that no width before the last equals the last
width, `img_size` divisible by `2^(len(widths)-1)`, and `norm_groups`
positive and dividing `first_conv_channels = 64` and every width -- so that
every `GroupNormalization(norm_groups)` accepts its channel count),
`build_model` succeeds with output shape `(batch, img_size, img_size, 3)`:
batch and the two spatial dims always equal the input's, while the channel
dim is the hardcoded 3 -- so the output shape equals the input shape exactly
when `img_channels = 3`. -/
theorem build_model_shape_valid (batch img_size img_channels : ℕ)
    (widths : List ℕ) (has_attention : List Bool) (nrb g : ℕ)
    (hne : widths ≠ [])
    (hlen : widths.length ≤ has_attention.length)
    (hbal : ∀ i, i < widths.length - 1 →
      widths.getD i 0 ≠ widths.getLast hne)
    (hdiv : 2 ^ (widths.length - 1) ∣ img_size)
    (hg : 0 < g) (hg64 : g ∣ 64)
    (hgw : ∀ w ∈ widths, g ∣ w ∧ 0 < w) :
    build_model_shape batch img_size img_channels widths has_attention nrb g
      = some ⟨⟨batch, img_size, img_size, 3⟩,
          widths.length * (nrb + 1), widths.length * (nrb + 1)⟩ := by
  match widths, hne with
  | w0 :: wrest, hne =>
  cases has_attention with
  | nil => simp at hlen
  | cons ha0 hatl =>
  have hgok64 : groupNormOk g 64 = true :=
    groupNormOk_of_dvd g 64 hg hg64 (by norm_num)
  have hgokw : ∀ w ∈ w0 :: wrest, groupNormOk g w = true := fun w hw =>
    groupNormOk_of_dvd g w hg (hgw w hw).1 (hgw w hw).2
  have hgw0 : groupNormOk g w0 = true := hgokw w0 (List.mem_cons_self _ _)
  cases wrest with
  | nil =>
    -- a single resolution level: no downsampling, no upsampling
    obtain ⟨ce, hgce, hce⟩ := downLevels_last_level nrb g batch img_size 64 64
      w0 ha0 [] 1 hgw0 hgok64
    have hce' : downLevels w0 nrb g ([w0].zip (ha0 :: hatl))
        (conv2dShape first_conv_channels
          ⟨batch, img_size, img_size, img_channels⟩)
        [conv2dShape first_conv_channels
          ⟨batch, img_size, img_size, img_channels⟩] 1
      = some (⟨batch, img_size, img_size, ce⟩,
          List.replicate nrb ⟨batch, img_size, img_size, w0⟩
            ++ ⟨batch, img_size, img_size, 64⟩ :: [], 1 + nrb) := hce
    have hdecl : upLevels nrb g (([w0].zip (ha0 :: hatl)).enum.reverse)
        ⟨batch, img_size, img_size, w0⟩
        (List.replicate nrb ⟨batch, img_size, img_size, w0⟩
          ++ ⟨batch, img_size, img_size, 64⟩ :: []) 0
        = some (⟨batch, img_size, img_size, w0⟩, [], 0 + (nrb + 1)) := by
      have henum : (([w0].zip (ha0 :: hatl)).enum.reverse)
          = [(0, w0, ha0)] := rfl
      rw [henum]
      exact upLevels_last_level_zero nrb g w0 ha0 batch img_size w0 64 [] 0
        hgw0 hgw0 hgok64
    rw [build_model_shape_eq batch img_size img_channels [w0] (ha0 :: hatl)
      nrb g w0
      (by simp only [List.length_cons] at hlen ⊢; omega)
      rfl hgw0
      (⟨batch, img_size, img_size, ce⟩,
        List.replicate nrb ⟨batch, img_size, img_size, w0⟩
          ++ ⟨batch, img_size, img_size, 64⟩ :: [], 1 + nrb)
      (⟨batch, img_size, img_size, w0⟩, [], 0 + (nrb + 1))
      hce' hgce hdecl hgw0]
    simp only [Option.some.injEq, BuildOut.mk.injEq, Shape4.mk.injEq,
      conv2dShape, List.length_cons, List.length_nil]
    refine ⟨trivial, ?_, ?_⟩ <;> omega
  | cons w1 wr =>
    -- at least two levels
    have hlen' : (w1 :: wr).length ≤ hatl.length := by
      simp only [List.length_cons] at hlen ⊢
      omega
    have hwl0 : (w0 :: w1 :: wr).getLast hne
        = (w1 :: wr).getLast (by simp) := by
      rw [List.getLast_cons]
    set wlast := (w1 :: wr).getLast (by simp) with hwlastdef
    have hlastq : (w1 :: wr).getLast? = some wlast :=
      List.getLast?_eq_getLast _ (by simp)
    have hgwlast : groupNormOk g wlast = true :=
      hgokw wlast (List.mem_cons_of_mem _ (List.getLast_mem (by simp)))
    have hgw1 : groupNormOk g w1 = true :=
      hgokw w1 (List.mem_cons_of_mem _ (List.mem_cons_self _ _))
    -- the suffix of levels below the top one
    have hrestlen : ((w1 :: wr).zip hatl).length = wr.length + 1 := by
      rw [List.length_zip]
      simp only [List.length_cons] at hlen' ⊢
      omega
    have hrestne : (w1 :: wr).zip hatl ≠ [] := by
      intro e
      rw [e] at hrestlen
      simp at hrestlen
    have hrestlast : ((w1 :: wr).zip hatl).getLast?.map Prod.fst
        = some wlast :=
      zip_getLast_fst (w1 :: wr) hatl wlast (by simp) hlen' hlastq
    have hw0 : w0 ≠ wlast := by
      have := hbal 0 (by simp)
      rw [hwl0] at this
      exact this
    have hbal' : ∀ wa ∈ ((w1 :: wr).zip hatl).dropLast, wa.1 ≠ wlast := by
      intro z hz
      rw [List.mem_iff_getElem] at hz
      obtain ⟨i, hi, hzi⟩ := hz
      have hidl : i < ((w1 :: wr).zip hatl).length - 1 := by
        rw [← List.length_dropLast]
        exact hi
      have hiz : i < ((w1 :: wr).zip hatl).length := by omega
      rw [List.getElem_dropLast] at hzi
      have hilt : i < (w1 :: wr).length := by
        rw [hrestlen] at hiz
        simp only [List.length_cons]
        omega
      have hz1 : z.1 = (w1 :: wr)[i] := by
        rw [← hzi, List.getElem_zip]
      have hbi := hbal (i + 1) (by
        rw [hrestlen] at hidl
        simp only [List.length_cons]
        omega)
      rw [hwl0] at hbi
      have hgd : (w0 :: w1 :: wr).getD (i + 1) 0 = (w1 :: wr)[i] := by
        rw [List.getD_eq_getElem _ _ (by
          simp only [List.length_cons]
          omega)]
        rw [List.getElem_cons_succ]
      rw [hgd] at hbi
      rw [hz1]
      exact hbi
    have hgok' : ∀ wa ∈ (w1 :: wr).zip hatl, groupNormOk g wa.1 = true := by
      intro z hz
      obtain ⟨z1, z2⟩ := z
      have hmem := (List.of_mem_zip hz).1
      exact hgokw z1 (List.mem_cons_of_mem _ hmem)
    have hlvlen2 : (w0 :: w1 :: wr).length - 1 = wr.length + 1 := by simp
    rw [hlvlen2] at hdiv
    have heven : 2 ∣ img_size := dvd_trans (dvd_pow_self 2 (by omega)) hdiv
    obtain ⟨q, hq⟩ := hdiv
    have h2len : (2 : ℕ) ^ (wr.length + 1) = 2 * 2 ^ wr.length := by
      rw [pow_succ']
    have hH2q : img_size / 2 = 2 ^ wr.length * q := by
      rw [hq, h2len, Nat.mul_assoc]
      exact Nat.mul_div_cancel_left _ (by norm_num)
    have hdiv' : 2 ^ (((w1 :: wr).zip hatl).length - 1) ∣ img_size / 2 := by
      rw [hrestlen]
      simp only [Nat.add_sub_cancel]
      exact ⟨q, hH2q⟩
    have hspat : img_size / 2 / 2 ^ wr.length
        = img_size / 2 ^ (wr.length + 1) := by
      rw [Nat.div_div_eq_div_mul, ← h2len]
    -- encoder: process the top level, then the suffix
    obtain ⟨ce, skipsE, hgce, hienc, hidec⟩ := unet_suffix_roundtrip nrb g
      batch ((w1 :: wr).zip hatl) wlast (img_size / 2) 1 w0 w0
      (List.replicate nrb ⟨batch, img_size, img_size, w0⟩
        ++ ⟨batch, img_size, img_size, 64⟩ :: [])
      (1 + nrb + 1) hrestne hrestlast hbal' hgok' hdiv' (by omega) hgw0 hgw0
    rw [hrestlen] at hienc hidec
    simp only [Nat.add_sub_cancel] at hienc hidec
    have henc : downLevels wlast nrb g ((w0 :: w1 :: wr).zip (ha0 :: hatl))
        (conv2dShape first_conv_channels
          ⟨batch, img_size, img_size, img_channels⟩)
        [conv2dShape first_conv_channels
          ⟨batch, img_size, img_size, img_channels⟩] 1
      = some (⟨batch, img_size / 2 ^ (wr.length + 1),
            img_size / 2 ^ (wr.length + 1), ce⟩, skipsE,
          1 + nrb + 1 + (wr.length + 1) * nrb + wr.length) := by
      have hzipcons : ((w0 :: w1 :: wr).zip (ha0 :: hatl))
          = (w0, ha0) :: (w1 :: wr).zip hatl := rfl
      have hstem : conv2dShape first_conv_channels
          ⟨batch, img_size, img_size, img_channels⟩
          = ⟨batch, img_size, img_size, 64⟩ := rfl
      rw [hzipcons, hstem,
        downLevels_step nrb g batch img_size 64 64 w0 wlast ha0
          ((w1 :: wr).zip hatl) [] 1 hw0 heven hgw0 hgok64,
        hienc, hspat]
    -- decoder: suffix levels first, then the top level without upsampling
    rcases hatl with _ | ⟨b1, btl⟩
    · simp at hlen'
    have hdecfull : upLevels nrb g
        (((w0 :: w1 :: wr).zip (ha0 :: b1 :: btl)).enum.reverse)
        ⟨batch, img_size / 2 ^ (wr.length + 1),
          img_size / 2 ^ (wr.length + 1), wlast⟩ skipsE 0
      = some (⟨batch, img_size, img_size, w0⟩, [],
          0 + (wr.length + 1) * (nrb + 1) + (nrb + 1)) := by
      have henumrev : (((w0 :: w1 :: wr).zip (ha0 :: b1 :: btl)).enum.reverse)
          = (List.enumFrom 1 ((w1 :: wr).zip (b1 :: btl))).reverse
              ++ [(0, w0, ha0)] := by
        have hzipcons : ((w0 :: w1 :: wr).zip (ha0 :: b1 :: btl))
            = (w0, ha0) :: (w1 :: wr).zip (b1 :: btl) := rfl
        rw [hzipcons, List.enum_cons, List.reverse_cons]
      rw [henumrev, upLevels_append, ← hspat]
      rw [hidec wlast 0 hgwlast]
      simp only [Option.some_bind]
      have h2H2 : 2 * (img_size / 2) = img_size := by omega
      rw [h2H2]
      have hheadD : (((w1 :: wr).zip (b1 :: btl)).headD (0, false)).1 = w1 :=
        rfl
      rw [hheadD]
      exact upLevels_last_level_zero nrb g w0 ha0 batch img_size w1 64 []
        (0 + (wr.length + 1) * (nrb + 1)) hgw0 hgw1 hgok64
    rw [build_model_shape_eq batch img_size img_channels (w0 :: w1 :: wr)
      (ha0 :: b1 :: btl) nrb g wlast
      (by simp only [List.length_cons] at hlen ⊢; omega)
      (by rw [List.getLast?_eq_getLast _ hne, hwl0])
      hgwlast
      (⟨batch, img_size / 2 ^ (wr.length + 1),
        img_size / 2 ^ (wr.length + 1), ce⟩, skipsE,
        1 + nrb + 1 + (wr.length + 1) * nrb + wr.length)
      (⟨batch, img_size, img_size, w0⟩, [],
        0 + (wr.length + 1) * (nrb + 1) + (nrb + 1))
      henc hgce hdecfull hgw0]
    simp only [Option.some.injEq, BuildOut.mk.injEq, Shape4.mk.injEq,
      conv2dShape, List.length_cons]
    have hr2 : (wr.length + 1 + 1) * (nrb + 1)
        = (wr.length + 1) * nrb + wr.length + nrb + 2 := by ring
    have hr1 : (wr.length + 1 + 1) * (nrb + 1)
        = (wr.length + 1) * (nrb + 1) + (nrb + 1) := by ring
    refine ⟨trivial, ?_, ?_⟩ <;> omega

theorem build_model_shape_valid_witness :
    build_model_shape 1 8 3 [4, 8] [false, false] 1 1
      = some ⟨⟨1, 8, 8, 3⟩, 2 * (1 + 1), 2 * (1 + 1)⟩ :=
  build_model_shape_valid 1 8 3 [4, 8] [false, false] 1 1
    (by decide) (by decide) (by decide) (by decide) (by decide) (by decide)
    (by decide)

/-- C9 fails on the code as stated: the output convolution is not exactly
zero-initialized.  `kernel_init(0.0)` clamps the variance-scaling scale to
`max(0, 1e-10) = 1e-10 > 0`, so the kernel entries are drawn uniformly from
an interval of positive half-width (for the final conv, fan_avg =
(576 + 27) / 2 = 603/2) and are almost surely nonzero; the untrained output
on a zero image is therefore only near zero, not exactly zero. -/
theorem kernel_init_zero_not_zero :
    kernel_init_scale 0 = 1 / 10000000000 ∧ 0 < kernel_init_scale 0 ∧
      0 < variance_scaling_limit_sq (kernel_init_scale 0) (603 / 2) := by
  have h : kernel_init_scale 0 = 1 / 10000000000 := by
    unfold kernel_init_scale
    rw [max_eq_right (by norm_num)]
  refine ⟨h, ?_, ?_⟩
  · rw [h]
    norm_num
  · rw [h]
    unfold variance_scaling_limit_sq
    norm_num

/-- C9 amended: with the reference configuration
(widths `[64, 128, 256, 512]`, attention `[F, F, T, T]`, 2 residual blocks,
8 norm groups) on a `(1, 64, 64, 3)` input, the model builds with output
shape `(1, 64, 64, 3)`; but the final convolution's variance-scaling scale is
the clamped `1e-10`, not 0, so the untrained output is near zero rather than
exactly zero. -/
theorem reference_model_output_shape :
    build_model_shape 1 64 3 [64, 128, 256, 512] [false, false, true, true]
        2 8 = some ⟨⟨1, 64, 64, 3⟩, 12, 12⟩ ∧
      0 < kernel_init_scale 0 := by
  constructor
  · decide
  · unfold kernel_init_scale
    rw [max_eq_right (by norm_num)]
    norm_num

end DDPM
